import Mathlib

/-!
Verification of the workflow-orchestration behavior of
`firstlevelpipeline.py` (a nipype first-level analysis pipeline).

The script builds nested workflows (`preproc`, `volanalysis`, `frameflow`,
`metaflow`), wires them with `connect` calls, clones `volanalysis` into
`surfanalysis`, declares an iterable over three subjects, and runs the
flattened graph with a two-worker scheduler.  The orchestration engine
itself (`nipype.pipeline.engine`) is not part of this repository's sources;
where a claim depends on engine behavior, the engine operation is modelled
from the specification (each such definition says so in its doc comment).
The connection lists, node names, parameter values and the `subjectinfo`
function are transcribed from the script itself.
-/

/-- A qualified port reference: a node identity (dotted path relative to the
workflow owning the connection) together with a port name. -/
structure Endpoint where
  node : String
  port : String
deriving DecidableEq, Repr

/-- A recorded connection: one source endpoint feeding one destination
endpoint. -/
structure Edge where
  src : Endpoint
  dst : Endpoint
deriving DecidableEq, Repr

/-- Errors raised by `connect` at definition time. -/
inductive ConnError where
  | unknownPort (e : Endpoint)
  | alreadyConnected (d : Endpoint)
deriving DecidableEq, Repr

/-- `destConnected edges d` holds when some already-recorded edge feeds the
destination endpoint `d`. -/
def destConnected (edges : List Edge) (d : Endpoint) : Bool :=
  edges.any (fun e => e.dst == d)

/-- Modelled from the spec: `connect(list of (source, dest) port pairs)`
validates each pair against the interface descriptors and rejects on an
unknown port or on a destination port that already has a connection; on
success it records the edges.  The interface descriptors themselves live in
the external nipype interface classes, which are not in the sources; they
are modelled by the ambient list `declared` of valid endpoints (all ports
the script references are declared by the corresponding interfaces, and all
connected pairs are type-compatible there). -/
def connectPairs (declared : List Endpoint) :
    List Edge → List (Endpoint × Endpoint) → Except ConnError (List Edge)
  | edges, [] => .ok edges
  | edges, (s, d) :: rest =>
    if s ∈ declared then
      if d ∈ declared then
        if destConnected edges d then .error (.alreadyConnected d)
        else connectPairs declared (edges ++ [⟨s, d⟩]) rest
      else .error (.unknownPort d)
    else .error (.unknownPort s)

/-- The port pairs of the single `preproc.connect` call (script lines
88-101), in order.  The same two pairs into `art` appear twice: once at
positions 4-5 and again at positions 9-10. -/
def preprocPairs : List (Endpoint × Endpoint) :=
  [ (⟨"sliceTiming", "timecorrected_files"⟩, ⟨"realign", "in_files"⟩),
    (⟨"realign", "mean_image"⟩, ⟨"bbregister", "source_file"⟩),
    (⟨"realign", "realigned_files"⟩, ⟨"volsmooth", "in_files"⟩),
    (⟨"realign", "realignment_parameters"⟩, ⟨"art", "realignment_parameters"⟩),
    (⟨"realign", "mean_image"⟩, ⟨"art", "mask_file"⟩),
    (⟨"volsmooth", "smoothed_files"⟩, ⟨"art", "realigned_files"⟩),
    (⟨"fssource", "aseg"⟩, ⟨"binarize", "in_file"⟩),
    (⟨"binarize", "binary_file"⟩, ⟨"dilate", "in_file"⟩),
    (⟨"realign", "realignment_parameters"⟩, ⟨"art", "realignment_parameters"⟩),
    (⟨"realign", "mean_image"⟩, ⟨"art", "mask_file"⟩) ]

/-- The first eight pairs of the `preproc.connect` call: the call's pair
list without the repeated ninth and tenth pairs. -/
def preprocPairsDedup : List (Endpoint × Endpoint) := preprocPairs.take 8

/-- The port pairs of the `volanalysis.connect` call (script lines
139-145). -/
def volPairs : List (Endpoint × Endpoint) :=
  [ (⟨"modelspec", "session_info"⟩, ⟨"level1design", "session_info"⟩),
    (⟨"level1design", "spm_mat_file"⟩, ⟨"level1estimate", "spm_mat_file"⟩),
    (⟨"level1estimate", "spm_mat_file"⟩, ⟨"contrastestimate", "spm_mat_file"⟩),
    (⟨"level1estimate", "beta_images"⟩, ⟨"contrastestimate", "beta_images"⟩),
    (⟨"level1estimate", "residual_image"⟩, ⟨"contrastestimate", "residual_image"⟩) ]

/-- The port pairs of the first `frameflow.connect` call (script lines
163-178).  `inputnode.subject_id` fans out to two destinations. -/
def framePairs1 : List (Endpoint × Endpoint) :=
  [ (⟨"inputnode", "func"⟩, ⟨"preproc.sliceTiming", "in_files"⟩),
    (⟨"inputnode", "subject_id"⟩, ⟨"preproc.bbregister", "subject_id"⟩),
    (⟨"inputnode", "subject_id"⟩, ⟨"preproc.fssource", "subject_id"⟩),
    (⟨"inputnode", "session_info"⟩, ⟨"volanalysis.modelspec", "subject_info"⟩),
    (⟨"inputnode", "contrasts"⟩, ⟨"volanalysis.contrastestimate", "contrasts"⟩),
    (⟨"preproc.realign", "realignment_parameters"⟩,
      ⟨"volanalysis.modelspec", "realignment_parameters"⟩),
    (⟨"preproc.volsmooth", "smoothed_files"⟩,
      ⟨"volanalysis.modelspec", "functional_runs"⟩),
    (⟨"preproc.art", "outlier_files"⟩, ⟨"volanalysis.modelspec", "outlier_files"⟩),
    (⟨"preproc.dilate", "out_file"⟩, ⟨"volanalysis.level1design", "mask_image"⟩) ]

/-- The port pairs of the second `frameflow.connect` call (script lines
313-324), wiring the cloned `surfanalysis` branch. -/
def frameSurfPairs : List (Endpoint × Endpoint) :=
  [ (⟨"inputnode", "session_info"⟩, ⟨"surfanalysis.modelspec", "subject_info"⟩),
    (⟨"inputnode", "contrasts"⟩, ⟨"surfanalysis.contrastestimate", "contrasts"⟩),
    (⟨"preproc.realign", "realignment_parameters"⟩,
      ⟨"surfanalysis.modelspec", "realignment_parameters"⟩),
    (⟨"preproc.realign", "realigned_files"⟩,
      ⟨"surfanalysis.modelspec", "functional_runs"⟩),
    (⟨"preproc.art", "outlier_files"⟩, ⟨"surfanalysis.modelspec", "outlier_files"⟩),
    (⟨"preproc.dilate", "out_file"⟩, ⟨"surfanalysis.level1design", "mask_image"⟩) ]

/-- The port pairs of the first `metaflow.connect` call (script lines
287-302).  The fourth pair routes `infosource.subject_id` through the
`subjectinfo` function into `inputnode.session_info`. -/
def metaPairs1 : List (Endpoint × Endpoint) :=
  [ (⟨"infosource", "subject_id"⟩, ⟨"datasource", "subject_id"⟩),
    (⟨"datasource", "func"⟩, ⟨"frameflow.inputnode", "func"⟩),
    (⟨"infosource", "subject_id"⟩, ⟨"frameflow.inputnode", "subject_id"⟩),
    (⟨"infosource", "subject_id"⟩, ⟨"frameflow.inputnode", "session_info"⟩),
    (⟨"frameflow.preproc.bbregister", "out_reg_file"⟩, ⟨"datasink", "bbregister"⟩),
    (⟨"frameflow.volanalysis.contrastestimate", "spm_mat_file"⟩,
      ⟨"datasink", "vol_contrasts.@spm_mat"⟩),
    (⟨"frameflow.volanalysis.contrastestimate", "spmT_images"⟩,
      ⟨"datasink", "vol_contrasts.@T"⟩),
    (⟨"frameflow.volanalysis.contrastestimate", "con_images"⟩,
      ⟨"datasink", "vol_contrasts.@con"⟩) ]

/-- The port pairs of the second `metaflow.connect` call (script lines
327-336).  Its first pair routes `preproc.bbregister.out_reg_file` to the
datasink destination `bbregister` a second time. -/
def metaPairs2 : List (Endpoint × Endpoint) :=
  [ (⟨"frameflow.preproc.bbregister", "out_reg_file"⟩, ⟨"datasink", "bbregister"⟩),
    (⟨"frameflow.surfanalysis.contrastestimate", "spm_mat_file"⟩,
      ⟨"datasink", "surf_contrasts.@spm_mat"⟩),
    (⟨"frameflow.surfanalysis.contrastestimate", "spmT_images"⟩,
      ⟨"datasink", "surf_contrasts.@T"⟩),
    (⟨"frameflow.surfanalysis.contrastestimate", "con_images"⟩,
      ⟨"datasink", "surf_contrasts.@con"⟩) ]

/-- The declared ports relevant to the `preproc.connect` call, as the
interfaces referenced by the script declare them. -/
def preprocDeclared : List Endpoint :=
  (preprocPairs.map (·.1)) ++ (preprocPairs.map (·.2))

/-- The declared ports relevant to the two `frameflow.connect` calls. -/
def frameDeclared : List Endpoint :=
  (framePairs1.map (·.1)) ++ (framePairs1.map (·.2)) ++
    (frameSurfPairs.map (·.1)) ++ (frameSurfPairs.map (·.2))

/-- The declared ports relevant to the two `metaflow.connect` calls
(`DataSink` accepts arbitrarily named destination ports). -/
def metaDeclared : List Endpoint :=
  (metaPairs1.map (·.1)) ++ (metaPairs1.map (·.2)) ++
    (metaPairs2.map (·.1)) ++ (metaPairs2.map (·.2))

/-- The edges recorded by the first `metaflow.connect` call. -/
def metaEdges1 : List Edge := metaPairs1.map (fun p => ⟨p.1, p.2⟩)

theorem destConnected_append (edges : List Edge) (e : Edge) (d : Endpoint)
    (h : destConnected edges d = true) :
    destConnected (edges ++ [e]) d = true := by
  simp only [destConnected, List.any_append, Bool.or_eq_true] at *
  exact Or.inl h

theorem connectPairs_error_of_destConnected (declared : List Endpoint)
    (pre : List (Endpoint × Endpoint)) :
    ∀ (edges : List Edge) (post : List (Endpoint × Endpoint))
      (s d : Endpoint), destConnected edges d = true →
      ∃ err, connectPairs declared edges (pre ++ (s, d) :: post) = .error err := by
  induction pre with
  | nil =>
    intro edges post s d hd
    simp only [List.nil_append, connectPairs]
    by_cases hs : s ∈ declared
    · by_cases hdd : d ∈ declared
      · simp [hs, hdd, hd]
      · simp [hs, hdd]
    · simp [hs]
  | cons p pre ih =>
    intro edges post s d hd
    obtain ⟨ps, pd⟩ := p
    simp only [List.cons_append, connectPairs]
    by_cases hs : ps ∈ declared
    · by_cases hdd : pd ∈ declared
      · by_cases hc : destConnected edges pd
        · simp [hs, hdd, hc]
        · simp only [hs, hdd, hc, if_true, if_false, Bool.false_eq_true]
          exact ih (edges ++ [⟨ps, pd⟩]) post s d (destConnected_append edges _ d hd)
      · simp [hs, hdd]
    · simp [hs]

theorem destConnected_eq_false_iff (edges : List Edge) (d : Endpoint) :
    destConnected edges d = false ↔ d ∉ edges.map (·.dst) := by
  rw [← Bool.not_eq_true]
  simp [destConnected, List.any_eq_true, List.mem_map]

theorem connectPairs_ok_dest_nodup (declared : List Endpoint) :
    ∀ (pairs : List (Endpoint × Endpoint)) (edges E : List Edge),
      (edges.map (·.dst)).Nodup → connectPairs declared edges pairs = .ok E →
      (E.map (·.dst)).Nodup := by
  intro pairs
  induction pairs with
  | nil =>
    intro edges E hn h
    simp only [connectPairs, Except.ok.injEq] at h
    exact h ▸ hn
  | cons p rest ih =>
    intro edges E hn h
    obtain ⟨s, d⟩ := p
    simp only [connectPairs] at h
    by_cases hs : s ∈ declared
    · by_cases hd : d ∈ declared
      · by_cases hc : destConnected edges d
        · simp [hs, hd, hc] at h
        · simp only [hs, hd, hc, if_true, if_false, Bool.false_eq_true] at h
          refine ih (edges ++ [⟨s, d⟩]) E ?_ h
          have hnd : d ∉ edges.map (·.dst) :=
            (destConnected_eq_false_iff edges d).mp (by simpa using hc)
          simp only [List.map_append, List.map_cons, List.map_nil]
          refine List.Nodup.append hn (List.nodup_singleton d) ?_
          intro x hx hxd
          simp only [List.mem_singleton] at hxd
          exact hnd (by rwa [hxd] at hx)
      · simp [hs, hd] at h
    · simp [hs] at h

theorem connectPairs_ok_of_fresh_dests (declared : List Endpoint) :
    ∀ (pairs : List (Endpoint × Endpoint)) (edges : List Edge),
      (∀ pr ∈ pairs, pr.1 ∈ declared ∧ pr.2 ∈ declared) →
      (pairs.map (·.2)).Nodup →
      (∀ pr ∈ pairs, destConnected edges pr.2 = false) →
      ∃ E, connectPairs declared edges pairs = .ok E := by
  intro pairs
  induction pairs with
  | nil => intro edges _ _ _; exact ⟨edges, rfl⟩
  | cons p rest ih =>
    intro edges hdecl hnd hfresh
    obtain ⟨s, d⟩ := p
    have hs : s ∈ declared := (hdecl (s, d) (List.mem_cons_self _ _)).1
    have hd : d ∈ declared := (hdecl (s, d) (List.mem_cons_self _ _)).2
    have hc : destConnected edges d = false := hfresh (s, d) (List.mem_cons_self _ _)
    simp only [List.map_cons, List.nodup_cons] at hnd
    obtain ⟨hdni, hnd'⟩ := hnd
    obtain ⟨E, hE⟩ := ih (edges ++ [⟨s, d⟩])
      (fun pr hpr => hdecl pr (List.mem_cons_of_mem _ hpr)) hnd'
      (by
        intro pr hpr
        have h1 : destConnected edges pr.2 = false :=
          hfresh pr (List.mem_cons_of_mem _ hpr)
        have h2 : d ≠ pr.2 := fun hEq => hdni (hEq ▸ List.mem_map_of_mem (·.2) hpr)
        simp only [destConnected, List.any_append, Bool.or_eq_false_iff]
        refine ⟨h1, ?_⟩
        simp [h2])
    refine ⟨E, ?_⟩
    simp only [connectPairs, hs, hd, hc, if_true, if_false, Bool.false_eq_true]
    exact hE

/-- C1: `connect` rejects any port pair whose destination port already has a
recorded connection, and no edge is recorded (the whole call returns an
error, leaving the caller's edge set untouched); a destination port of a
successfully recorded edge set receives at most one connection.  In
particular the repeated `(realign.realignment_parameters ->
art.realignment_parameters)` / `(realign.mean_image -> art.mask_file)`
pairs inside the single `preproc.connect` call are rejected, and the second
`metaflow.connect` call, which routes `preproc.bbregister.out_reg_file` to
the already-connected datasink destination `bbregister`, is rejected as
well. -/
theorem connect_rejects_duplicate_destination :
    (∀ (declared : List Endpoint) (edges : List Edge) (d : Endpoint)
        (pre post : List (Endpoint × Endpoint)) (s : Endpoint),
        destConnected edges d = true →
        ∃ err, connectPairs declared edges (pre ++ (s, d) :: post) = .error err) ∧
    (∀ (declared : List Endpoint) (pairs : List (Endpoint × Endpoint))
        (edges E : List Edge),
        (edges.map (·.dst)).Nodup → connectPairs declared edges pairs = .ok E →
        (E.map (·.dst)).Nodup) ∧
    connectPairs metaDeclared [] metaPairs1 = .ok metaEdges1 ∧
    connectPairs preprocDeclared [] preprocPairs =
      .error (.alreadyConnected ⟨"art", "realignment_parameters"⟩) ∧
    connectPairs metaDeclared metaEdges1 metaPairs2 =
      .error (.alreadyConnected ⟨"datasink", "bbregister"⟩) :=
  ⟨fun declared edges d pre post s h =>
      connectPairs_error_of_destConnected declared pre edges post s d h,
    connectPairs_ok_dest_nodup, by rfl, by rfl, by rfl⟩

theorem connect_rejects_duplicate_destination_witness :
    ∃ err,
      connectPairs preprocDeclared
        [⟨⟨"realign", "mean_image"⟩, ⟨"art", "mask_file"⟩⟩]
        [(⟨"realign", "realignment_parameters"⟩, ⟨"art", "mask_file"⟩)] =
        .error err :=
  connect_rejects_duplicate_destination.1 preprocDeclared
    [⟨⟨"realign", "mean_image"⟩, ⟨"art", "mask_file"⟩⟩]
    ⟨"art", "mask_file"⟩ [] [] ⟨"realign", "realignment_parameters"⟩ (by rfl)

/-- C8: fan-out is always legal: `connect` succeeds for any list of pairs
whose destination ports are fresh and pairwise distinct, with no condition
whatsoever on how often a source endpoint occurs.  Concretely, the first
`frameflow.connect` call (where `inputnode.subject_id` feeds both
`bbregister` and `fssource`), the `preproc.connect` pair list without its
repeated pairs (where `realign` feeds `bbregister`, `volsmooth` and `art`),
and the second `frameflow.connect` call all succeed. -/
theorem connect_allows_fanout :
    (∀ (declared : List Endpoint) (pairs : List (Endpoint × Endpoint))
        (edges : List Edge),
        (∀ pr ∈ pairs, pr.1 ∈ declared ∧ pr.2 ∈ declared) →
        (pairs.map (·.2)).Nodup →
        (∀ pr ∈ pairs, destConnected edges pr.2 = false) →
        ∃ E, connectPairs declared edges pairs = .ok E) ∧
    connectPairs frameDeclared [] framePairs1 =
      .ok (framePairs1.map (fun p => ⟨p.1, p.2⟩)) ∧
    connectPairs preprocDeclared [] preprocPairsDedup =
      .ok (preprocPairsDedup.map (fun p => ⟨p.1, p.2⟩)) ∧
    connectPairs frameDeclared (framePairs1.map (fun p => ⟨p.1, p.2⟩))
      frameSurfPairs =
      .ok ((framePairs1 ++ frameSurfPairs).map (fun p => ⟨p.1, p.2⟩)) :=
  ⟨connectPairs_ok_of_fresh_dests, by rfl, by rfl, by rfl⟩

theorem connect_allows_fanout_witness :
    ∃ E, connectPairs frameDeclared [] framePairs1 = .ok E :=
  connect_allows_fanout.1 frameDeclared framePairs1 []
    (by decide) (by decide) (by decide)

/-- The subject list the pipeline iterates over (script line 25). -/
def subjects : List String := ["subject1", "subject2", "subject3"]

/-- The node identities of the flattened metaflow graph (paths relative to
the metaflow root), obtained by flattening `frameflow`, `preproc`,
`volanalysis` and the cloned `surfanalysis` into one node set. -/
def metaNodes : List String :=
  [ "infosource", "datasource", "frameflow.inputnode",
    "frameflow.preproc.sliceTiming", "frameflow.preproc.realign",
    "frameflow.preproc.bbregister", "frameflow.preproc.volsmooth",
    "frameflow.preproc.art", "frameflow.preproc.fssource",
    "frameflow.preproc.binarize", "frameflow.preproc.dilate",
    "frameflow.volanalysis.modelspec", "frameflow.volanalysis.level1design",
    "frameflow.volanalysis.level1estimate",
    "frameflow.volanalysis.contrastestimate",
    "frameflow.surfanalysis.modelspec", "frameflow.surfanalysis.level1design",
    "frameflow.surfanalysis.level1estimate",
    "frameflow.surfanalysis.contrastestimate", "datasink" ]

/-- The node-level dependency edges of the flattened metaflow graph: one
entry per producer/consumer pair occurring in the script's `connect` calls
(port multiplicity collapsed). -/
def metaEdgesN : List (String × String) :=
  [ ("infosource", "datasource"),
    ("infosource", "frameflow.inputnode"),
    ("datasource", "frameflow.inputnode"),
    ("frameflow.inputnode", "frameflow.preproc.sliceTiming"),
    ("frameflow.inputnode", "frameflow.preproc.bbregister"),
    ("frameflow.inputnode", "frameflow.preproc.fssource"),
    ("frameflow.inputnode", "frameflow.volanalysis.modelspec"),
    ("frameflow.inputnode", "frameflow.volanalysis.contrastestimate"),
    ("frameflow.inputnode", "frameflow.surfanalysis.modelspec"),
    ("frameflow.inputnode", "frameflow.surfanalysis.contrastestimate"),
    ("frameflow.preproc.sliceTiming", "frameflow.preproc.realign"),
    ("frameflow.preproc.realign", "frameflow.preproc.bbregister"),
    ("frameflow.preproc.realign", "frameflow.preproc.volsmooth"),
    ("frameflow.preproc.realign", "frameflow.preproc.art"),
    ("frameflow.preproc.volsmooth", "frameflow.preproc.art"),
    ("frameflow.preproc.fssource", "frameflow.preproc.binarize"),
    ("frameflow.preproc.binarize", "frameflow.preproc.dilate"),
    ("frameflow.preproc.realign", "frameflow.volanalysis.modelspec"),
    ("frameflow.preproc.volsmooth", "frameflow.volanalysis.modelspec"),
    ("frameflow.preproc.art", "frameflow.volanalysis.modelspec"),
    ("frameflow.preproc.dilate", "frameflow.volanalysis.level1design"),
    ("frameflow.preproc.realign", "frameflow.surfanalysis.modelspec"),
    ("frameflow.preproc.art", "frameflow.surfanalysis.modelspec"),
    ("frameflow.preproc.dilate", "frameflow.surfanalysis.level1design"),
    ("frameflow.volanalysis.modelspec", "frameflow.volanalysis.level1design"),
    ("frameflow.volanalysis.level1design", "frameflow.volanalysis.level1estimate"),
    ("frameflow.volanalysis.level1estimate",
      "frameflow.volanalysis.contrastestimate"),
    ("frameflow.surfanalysis.modelspec", "frameflow.surfanalysis.level1design"),
    ("frameflow.surfanalysis.level1design",
      "frameflow.surfanalysis.level1estimate"),
    ("frameflow.surfanalysis.level1estimate",
      "frameflow.surfanalysis.contrastestimate"),
    ("frameflow.preproc.bbregister", "datasink"),
    ("frameflow.volanalysis.contrastestimate", "datasink"),
    ("frameflow.surfanalysis.contrastestimate", "datasink") ]

section ReachabilityDefs

variable {α : Type*}

/-- Forward reachability along directed edges (reflexive-transitive). -/
inductive Reach (edges : List (α × α)) (a : α) : α → Prop where
  | refl : Reach edges a a
  | tail {b c : α} : Reach edges a b → (b, c) ∈ edges → Reach edges a c

theorem reach_closed {edges : List (α × α)} {L : List α}
    (hC : ∀ e ∈ edges, e.1 ∈ L → e.2 ∈ L) {a b : α}
    (ha : a ∈ L) (h : Reach edges a b) : b ∈ L := by
  induction h with
  | refl => exact ha
  | tail _ he ih => exact hC _ he ih

end ReachabilityDefs

section Reachability

variable {α : Type*} [DecidableEq α] {β : Type*}

/-- One round of forward closure: add every edge target whose source is
already in the set. -/
def reachStep (edges : List (α × α)) (cur : List α) : List α :=
  cur ++ edges.filterMap (fun e => if e.1 ∈ cur ∧ e.2 ∉ cur then some e.2 else none)

/-- `fuel` rounds of forward closure. -/
def reachN (edges : List (α × α)) : Nat → List α → List α
  | 0, cur => cur
  | k + 1, cur => reachN edges k (reachStep edges cur)

theorem reachStep_sound {edges : List (α × α)} {a : α} {cur : List α}
    (h : ∀ x ∈ cur, Reach edges a x) :
    ∀ x ∈ reachStep edges cur, Reach edges a x := by
  intro x hx
  simp only [reachStep, List.mem_append, List.mem_filterMap] at hx
  rcases hx with hx | ⟨e, he, hfe⟩
  · exact h x hx
  · by_cases hc : e.1 ∈ cur ∧ e.2 ∉ cur
    · rw [if_pos hc] at hfe
      cases hfe
      exact Reach.tail (h e.1 hc.1) (by simpa using he)
    · rw [if_neg hc] at hfe
      exact absurd hfe (by simp)

theorem reachN_sound {edges : List (α × α)} {a : α} (fuel : Nat) :
    ∀ (cur : List α), (∀ x ∈ cur, Reach edges a x) →
      ∀ x ∈ reachN edges fuel cur, Reach edges a x := by
  induction fuel with
  | zero => intro cur h; exact h
  | succ k ih => intro cur h; exact ih (reachStep edges cur) (reachStep_sound h)

/-- Modelled from the spec: the iterable expander replicates the node
carrying the iterable field and every node causally downstream of it once
per candidate value; an execution-graph node's identity is its originating
definition path paired with the iterable-value tuple that produced it
(`none` for nodes outside the expansion). -/
def expandNodes (nodes : List α) (edges : List (α × α)) (iter : α)
    (vals : List β) (fuel : Nat) : List (α × Option β) :=
  let aff := reachN edges fuel [iter]
  nodes.flatMap (fun m =>
    if m ∈ aff then vals.map (fun v => (m, some v)) else [(m, none)])

/-- Modelled from the spec: connections are re-pointed so that each clone
only consumes artifacts from its own lineage (an expanded consumer reads
from the producer clone carrying the same iterable value, or from the
unexpanded producer). -/
def expandEdges (edges : List (α × α)) (iter : α) (vals : List β)
    (fuel : Nat) : List ((α × Option β) × (α × Option β)) :=
  let aff := reachN edges fuel [iter]
  edges.flatMap (fun e =>
    if e.1 ∈ aff then vals.map (fun v => ((e.1, some v), (e.2, some v)))
    else if e.2 ∈ aff then vals.map (fun v => ((e.1, none), (e.2, some v)))
    else [((e.1, none), (e.2, none))])

end Reachability

/-- The expanded node set of the metaflow graph: `infosource` carries the
iterable `('subject_id', subjects)` (script line 189). -/
def metaExpanded : List (String × Option String) :=
  expandNodes metaNodes metaEdgesN "infosource" subjects metaNodes.length

/-- The expanded edge set of the metaflow graph. -/
def metaExpandedEdges : List ((String × Option String) × (String × Option String)) :=
  expandEdges metaEdgesN "infosource" subjects metaNodes.length

/-- C2: expanding the iterable `('subject_id', subjects)` on `infosource`
(three candidate values) yields, for `infosource` and for every node
causally downstream of it — which is every node of the flattened metaflow
graph — exactly three clones, one per subject, each identified by the
originating definition path paired with the subject value; all identities
are pairwise distinct, and every expanded connection stays inside a single
lineage. -/
theorem iterable_expansion_three_clones :
    (∀ m ∈ metaNodes, Reach metaEdgesN "infosource" m) ∧
    (∀ m ∈ metaNodes,
      metaExpanded.filter (fun c => c.1 == m) =
        subjects.map (fun v => (m, some v))) ∧
    metaExpanded.Nodup ∧
    metaExpanded.length = 3 * metaNodes.length ∧
    (∀ e ∈ metaExpandedEdges, e.1.2 = e.2.2 ∨ e.1.2 = none) := by
  refine ⟨?_, by decide, by decide, by decide, by decide⟩
  have hs : ∀ x ∈ reachN metaEdgesN metaNodes.length ["infosource"],
      Reach metaEdgesN "infosource" x :=
    reachN_sound metaNodes.length ["infosource"]
      (by intro x hx; simp only [List.mem_singleton] at hx; exact hx ▸ Reach.refl)
  intro m hm
  refine hs m ?_
  revert hm
  revert m
  decide

theorem iterable_expansion_three_clones_witness :
    Reach metaEdgesN "infosource" "datasink" ∧
    metaExpanded.filter (fun c => c.1 == "datasink") =
      subjects.map (fun v => ("datasink", some v)) :=
  ⟨iterable_expansion_three_clones.1 "datasink" (by decide),
    iterable_expansion_three_clones.2.1 "datasink" (by decide)⟩

section CyclePreds

variable {α : Type*}

theorem chain_mem_pred {edges : List (α × α)} {a : α} :
    ∀ {t : List α}, List.Chain (fun x y => (x, y) ∈ edges) a t →
      ∀ x ∈ t, ∃ y ∈ a :: t, (y, x) ∈ edges := by
  intro t
  induction t generalizing a with
  | nil => intro _ x hx; exact absurd hx (List.not_mem_nil x)
  | cons b t' ih =>
    intro hch x hx
    cases hch with
    | cons hab hch' =>
      rcases List.mem_cons.mp hx with rfl | hx'
      · exact ⟨a, List.mem_cons_self _ _, hab⟩
      · obtain ⟨y, hy, hyx⟩ := ih hch' x hx'
        exact ⟨y, List.mem_cons_of_mem a hy, hyx⟩

theorem cycle_pred {edges : List (α × α)} {a : α} {t : List α}
    (hch : List.Chain (fun x y => (x, y) ∈ edges) a t)
    (hw : ((a :: t).getLast (List.cons_ne_nil a t), a) ∈ edges) :
    ∀ x ∈ a :: t, ∃ y ∈ a :: t, (y, x) ∈ edges := by
  intro x hx
  rcases List.mem_cons.mp hx with rfl | hx'
  · exact ⟨(x :: t).getLast (List.cons_ne_nil x t),
      List.getLast_mem (List.cons_ne_nil x t), hw⟩
  · exact chain_mem_pred hch x hx'

end CyclePreds

section GraphBuilder

variable {α : Type*} [DecidableEq α]

/-- Structural errors raised at graph-build time. -/
inductive BuildError where
  | cycleError
deriving DecidableEq, Repr

/-- `hasIncoming edges remaining n`: some edge whose source is still in
`remaining` feeds `n`. -/
def hasIncoming (edges : List (α × α)) (remaining : List α) (n : α) : Bool :=
  edges.any (fun e => e.2 == n && decide (e.1 ∈ remaining))

/-- One pass of the topological elimination: keep exactly the nodes that
still have an unresolved incoming edge. -/
def peelStep (edges : List (α × α)) (remaining : List α) : List α :=
  remaining.filter (fun n => hasIncoming edges remaining n)

/-- `fuel` passes of the topological elimination. -/
def peelN (edges : List (α × α)) : Nat → List α → List α
  | 0, r => r
  | k + 1, r => peelN edges k (peelStep edges r)

/-- Modelled from the spec: the graph builder flattens the node set and
detects cycles via topological sort — any node remaining with unresolved
in-degree after a stable pass signals a cycle, raising `CycleError`. -/
def buildGraph (nodes : List α) (edges : List (α × α)) :
    Except BuildError (List α × List (α × α)) :=
  if peelN edges nodes.length nodes = [] then .ok (nodes, edges)
  else .error .cycleError

/-- Modelled from the spec: `run` first builds the execution graph, then
executes its nodes; a structural error aborts the run before any node
executes.  The second component lists the nodes that execute. -/
def runFlow (nodes : List α) (edges : List (α × α)) :
    Except BuildError Unit × List α :=
  match buildGraph nodes edges with
  | .error e => (.error e, [])
  | .ok g => (.ok (), g.1)

theorem peelStep_keeps {edges : List (α × α)} {C rem : List α}
    (hp : ∀ x ∈ C, ∃ y ∈ C, (y, x) ∈ edges) (hsub : ∀ x ∈ C, x ∈ rem) :
    ∀ x ∈ C, x ∈ peelStep edges rem := by
  intro x hx
  obtain ⟨y, hy, hedge⟩ := hp x hx
  simp only [peelStep, List.mem_filter]
  refine ⟨hsub x hx, ?_⟩
  simp only [hasIncoming, List.any_eq_true]
  exact ⟨(y, x), hedge, by simp [hsub y hy]⟩

theorem peelN_keeps {edges : List (α × α)} {C : List α}
    (hp : ∀ x ∈ C, ∃ y ∈ C, (y, x) ∈ edges) :
    ∀ (fuel : Nat) (rem : List α), (∀ x ∈ C, x ∈ rem) →
      ∀ x ∈ C, x ∈ peelN edges fuel rem := by
  intro fuel
  induction fuel with
  | zero => intro rem hsub; exact hsub
  | succ k ih =>
    intro rem hsub
    exact ih (peelStep edges rem) (peelStep_keeps hp hsub)

end GraphBuilder

/-- C3: for every graph whose connections contain a directed cycle - a
nonempty node list `a :: t` chained by edges, closed by an edge from its
last element back to `a` - graph construction fails with `CycleError`,
and the run aborts with no node ever executing. -/
theorem cycle_error_before_execution {α : Type} [DecidableEq α]
    (nodes : List α) (edges : List (α × α)) (a : α) (t : List α)
    (hch : List.Chain (fun x y => (x, y) ∈ edges) a t)
    (hw : ((a :: t).getLast (List.cons_ne_nil a t), a) ∈ edges)
    (hsub : ∀ x ∈ a :: t, x ∈ nodes) :
    buildGraph nodes edges = .error .cycleError ∧
    runFlow nodes edges = (.error .cycleError, []) := by
  have hkeep : a ∈ peelN edges nodes.length nodes :=
    peelN_keeps (cycle_pred hch hw) nodes.length nodes hsub a
      (List.mem_cons_self _ _)
  have hb : buildGraph nodes edges = .error .cycleError := by
    simp only [buildGraph]
    rw [if_neg]
    intro hEq
    rw [hEq] at hkeep
    exact List.not_mem_nil a hkeep
  exact ⟨hb, by simp [runFlow, hb]⟩

theorem cycle_error_before_execution_witness :
    buildGraph ["a", "b"] [("a", "b"), ("b", "a")] = .error .cycleError ∧
    runFlow ["a", "b"] [("a", "b"), ("b", "a")] = (.error .cycleError, []) :=
  cycle_error_before_execution ["a", "b"] [("a", "b"), ("b", "a")] "a" ["b"]
    (List.Chain.cons (by decide) (List.Chain.nil))
    (by decide) (by decide)

section FailurePropagation

variable {α : Type*} [DecidableEq α]

/-- Terminal node statuses reported at the end of a run. -/
inductive NodeStatus where
  | succeeded
  | failed
  | skipped
deriving DecidableEq, Repr

/-- Look up a node's recorded status in a status table. -/
def lookupStatus (acc : List (α × NodeStatus)) (n : α) : Option NodeStatus :=
  (acc.find? (fun p => p.1 == n)).map (·.2)

/-- Whether a recorded upstream status blocks its consumers. -/
def isBlocking : Option NodeStatus → Bool
  | some .failed => true
  | some .skipped => true
  | _ => false

/-- `upstreamBlocked edges acc n`: some upstream dependency of `n` is
recorded as failed or skipped. -/
def upstreamBlocked (edges : List (α × α)) (acc : List (α × NodeStatus))
    (n : α) : Bool :=
  edges.any (fun e => e.2 == n && isBlocking (lookupStatus acc e.1))

/-- Modelled from the spec: the scheduler's terminal status table, obtained
by processing nodes in dependency order; a node with an upstream dependency
that is failed or skipped becomes `skipped`, otherwise it fails exactly
when its own execution fails (oracle `fails`), else succeeds. -/
def finalStatuses (edges : List (α × α)) (fails : α → Bool) :
    List α → List (α × NodeStatus) → List (α × NodeStatus)
  | [], acc => acc
  | n :: rest, acc =>
    finalStatuses edges fails rest
      (acc ++ [(n, if upstreamBlocked edges acc n then NodeStatus.skipped
                   else if fails n then NodeStatus.failed
                   else NodeStatus.succeeded)])

/-- `topoOrderB edges ts`: `ts` lists nodes in dependency order — no edge
targets a node while its source is that node or a later one. -/
def topoOrderB (edges : List (α × α)) : List α → Bool
  | [] => true
  | n :: rest =>
    edges.all (fun e => !(e.2 == n && decide (e.1 ∈ n :: rest))) &&
      topoOrderB edges rest

theorem lookupStatus_append_of_some {acc : List (α × NodeStatus)} {n : α}
    {st : NodeStatus} (h : lookupStatus acc n = some st)
    (l : List (α × NodeStatus)) : lookupStatus (acc ++ l) n = some st := by
  simp only [lookupStatus, Option.map_eq_some'] at h ⊢
  obtain ⟨p, hp, hpst⟩ := h
  exact ⟨p, by rw [List.find?_append, hp]; rfl, hpst⟩

theorem lookupStatus_append_of_none {acc : List (α × NodeStatus)} {n : α}
    (h : lookupStatus acc n = none) (l : List (α × NodeStatus)) :
    lookupStatus (acc ++ l) n = lookupStatus l n := by
  simp only [lookupStatus, Option.map_eq_none'] at h
  simp only [lookupStatus, List.find?_append, h, Option.none_or]

theorem lookupStatus_single {m : α} {st : NodeStatus} (k : α) :
    lookupStatus [(m, st)] k = if m = k then some st else none := by
  by_cases h : m = k
  · simp only [lookupStatus]
    rw [List.find?_cons_of_pos _ (by simp [h]), if_pos h]
    rfl
  · simp only [lookupStatus]
    rw [List.find?_cons_of_neg _ (by simp [h]), if_neg h]
    rfl

theorem lookupStatus_of_mem_keys {acc : List (α × NodeStatus)} {k : α}
    (h : k ∈ acc.map (·.1)) : ∃ st, lookupStatus acc k = some st := by
  induction acc with
  | nil => simp at h
  | cons p rest ih =>
    by_cases hpk : p.1 = k
    · refine ⟨p.2, ?_⟩
      simp only [lookupStatus]
      rw [List.find?_cons_of_pos _ (by simp [hpk])]
      rfl
    · have hk : k ∈ rest.map (·.1) := by
        simp only [List.map_cons, List.mem_cons] at h
        rcases h with h | h
        · exact absurd h.symm hpk
        · exact h
      obtain ⟨st, hst⟩ := ih hk
      refine ⟨st, ?_⟩
      simp only [lookupStatus]
      rw [List.find?_cons_of_neg _ (by simp [hpk])]
      exact hst

theorem finalStatuses_stable (edges : List (α × α)) (fails : α → Bool) :
    ∀ (rem : List α) (acc : List (α × NodeStatus)) {n : α} {st : NodeStatus},
      lookupStatus acc n = some st →
      lookupStatus (finalStatuses edges fails rem acc) n = some st := by
  intro rem
  induction rem with
  | nil => intro acc n st h; exact h
  | cons m rest ih =>
    intro acc n st h
    simp only [finalStatuses]
    exact ih _ (lookupStatus_append_of_some h _)

theorem finalStatuses_isSome (edges : List (α × α)) (fails : α → Bool) :
    ∀ (rem : List α) (acc : List (α × NodeStatus)), ∀ n ∈ rem,
      ∃ st, lookupStatus (finalStatuses edges fails rem acc) n = some st := by
  intro rem
  induction rem with
  | nil => intro acc n hn; exact absurd hn (List.not_mem_nil n)
  | cons m rest ih =>
    intro acc n hn
    simp only [finalStatuses]
    rcases List.mem_cons.mp hn with rfl | hn'
    · cases hl : lookupStatus acc n with
      | some st =>
        exact ⟨st, finalStatuses_stable edges fails rest _
          (lookupStatus_append_of_some hl _)⟩
      | none =>
        refine ⟨if upstreamBlocked edges acc n then NodeStatus.skipped
            else if fails n then NodeStatus.failed else NodeStatus.succeeded,
          finalStatuses_stable edges fails rest _ ?_⟩
        rw [lookupStatus_append_of_none hl, lookupStatus_single]
        simp
    · exact ih _ n hn'

theorem upstreamBlocked_congr {edges : List (α × α)}
    {acc₁ acc₂ : List (α × NodeStatus)} {n : α}
    (h : ∀ e ∈ edges, e.2 = n → lookupStatus acc₁ e.1 = lookupStatus acc₂ e.1) :
    upstreamBlocked edges acc₁ n = upstreamBlocked edges acc₂ n := by
  simp only [upstreamBlocked]
  induction edges with
  | nil => rfl
  | cons e es ih =>
    simp only [List.any_cons]
    rw [ih (fun e' he' hn' => h e' (List.mem_cons_of_mem e he') hn')]
    congr 1
    by_cases he : e.2 = n
    · rw [h e (List.mem_cons_self e es) he]
    · rw [show (e.2 == n) = false by simp [he]]
      simp

end FailurePropagation

theorem reach_ne_tail {α : Type*} {edges : List (α × α)} {a n : α}
    (h : Reach edges a n) (hne : n ≠ a) :
    ∃ b, Reach edges a b ∧ (b, n) ∈ edges := by
  cases h with
  | refl => exact absurd rfl hne
  | tail hb he => exact ⟨_, hb, he⟩

section FailureMaster

variable {α : Type*} [DecidableEq α]

theorem finalStatuses_skip_aux (edges : List (α × α)) (fails : α → Bool)
    (A : α) (final : List (α × NodeStatus))
    (hA : lookupStatus final A = some NodeStatus.failed) :
    ∀ (rem : List α) (acc : List (α × NodeStatus)),
      finalStatuses edges fails rem acc = final →
      rem.Nodup →
      topoOrderB edges rem = true →
      (∀ e ∈ edges, e.1 ∈ acc.map (·.1) ∨ e.1 ∈ rem) →
      (∀ x ∈ rem, lookupStatus acc x = none) →
      (∀ k st, lookupStatus acc k = some st → Reach edges A k → k ≠ A →
        st = NodeStatus.skipped) →
      (∀ st, lookupStatus acc A = some st → st = NodeStatus.failed) →
      ∀ k st, lookupStatus final k = some st → Reach edges A k → k ≠ A →
        st = NodeStatus.skipped := by
  intro rem
  induction rem with
  | nil =>
    intro acc hfin _ _ _ _ hI1 _ k st hk hreach hne
    have hacc : acc = final := hfin
    exact hI1 k st (hacc ▸ hk) hreach hne
  | cons n rest ih =>
    intro acc hfin hnd htopo hsrc hfresh hI1 hI2
    simp only [finalStatuses] at hfin
    set stn := (if upstreamBlocked edges acc n then NodeStatus.skipped
        else if fails n then NodeStatus.failed
        else NodeStatus.succeeded) with hstn
    simp only [topoOrderB, Bool.and_eq_true, List.all_eq_true] at htopo
    obtain ⟨htophead, htop'⟩ := htopo
    obtain ⟨hnmem, hnd'⟩ := List.nodup_cons.mp hnd
    have hreachskip : Reach edges A n → n ≠ A → stn = NodeStatus.skipped := by
      intro hreach hne
      obtain ⟨b, hRb, hbn⟩ := reach_ne_tail hreach hne
      have hbkeys : b ∈ acc.map (·.1) := by
        have h1 := htophead (b, n) hbn
        have hb_not : b ∉ n :: rest := by
          by_contra hmem
          simp [hmem] at h1
        rcases hsrc (b, n) hbn with h | h
        · exact h
        · exact absurd h hb_not
      obtain ⟨stb, hstb⟩ := lookupStatus_of_mem_keys hbkeys
      have hbad : isBlocking (some stb) = true := by
        by_cases hbA : b = A
        · subst hbA
          rw [hI2 stb hstb]
          rfl
        · rw [hI1 b stb hstb hRb hbA]
          rfl
      have hblocked : upstreamBlocked edges acc n = true := by
        simp only [upstreamBlocked, List.any_eq_true]
        exact ⟨(b, n), hbn, by simp [hstb, hbad]⟩
      simp [hstn, hblocked]
    refine ih (acc ++ [(n, stn)]) hfin hnd' htop' ?_ ?_ ?_ ?_
    · intro e he
      rcases hsrc e he with h | h
      · left
        simp only [List.map_append, List.mem_append]
        exact Or.inl h
      · rcases List.mem_cons.mp h with h' | h'
        · left
          simp [List.map_append, h']
        · exact Or.inr h'
    · intro x hx
      have h0 : lookupStatus acc x = none := hfresh x (List.mem_cons_of_mem n hx)
      have hxn : x ≠ n := fun hEq => hnmem (hEq ▸ hx)
      rw [lookupStatus_append_of_none h0, lookupStatus_single,
        if_neg (fun hEq => hxn hEq.symm)]
    · intro k st hk hreach hne
      cases hl : lookupStatus acc k with
      | some st0 =>
        have h2 : some st0 = some st :=
          (lookupStatus_append_of_some hl [(n, stn)]).symm.trans hk
        rw [← Option.some.inj h2]
        exact hI1 k st0 hl hreach hne
      | none =>
        rw [lookupStatus_append_of_none hl, lookupStatus_single] at hk
        by_cases hnk : n = k
        · subst hnk
          rw [if_pos rfl] at hk
          rw [← Option.some.inj hk]
          exact hreachskip hreach hne
        · rw [if_neg hnk] at hk
          exact absurd hk (by simp)
    · intro st hk
      cases hl : lookupStatus acc A with
      | some st0 =>
        have h2 : some st0 = some st :=
          (lookupStatus_append_of_some hl [(n, stn)]).symm.trans hk
        rw [← Option.some.inj h2]
        exact hI2 st0 hl
      | none =>
        rw [lookupStatus_append_of_none hl, lookupStatus_single] at hk
        by_cases hnA : n = A
        · rw [if_pos hnA] at hk
          have hstable : lookupStatus final A = some stn := by
            rw [← hfin]
            apply finalStatuses_stable
            rw [lookupStatus_append_of_none hl, lookupStatus_single, if_pos hnA]
          rw [← Option.some.inj hk]
          exact (Option.some.inj (hA.symm.trans hstable)).symm
        · rw [if_neg hnA] at hk
          exact absurd hk (by simp)

theorem finalStatuses_independent_aux (edges : List (α × α))
    (fails₁ fails₂ : α → Bool) (F : List α)
    (hf : ∀ x, x ∉ F → fails₁ x = fails₂ x) :
    ∀ (rem : List α) (acc₁ acc₂ : List (α × NodeStatus)),
      (∀ k, (∀ a ∈ F, ¬ Reach edges a k) →
        lookupStatus acc₁ k = lookupStatus acc₂ k) →
      ∀ k, (∀ a ∈ F, ¬ Reach edges a k) →
        lookupStatus (finalStatuses edges fails₁ rem acc₁) k =
          lookupStatus (finalStatuses edges fails₂ rem acc₂) k := by
  intro rem
  induction rem with
  | nil =>
    intro acc₁ acc₂ hacc k hk
    simpa [finalStatuses] using hacc k hk
  | cons n rest ih =>
    intro acc₁ acc₂ hacc k hk
    simp only [finalStatuses]
    refine ih _ _ ?_ k hk
    intro k' hk'
    have hagree := hacc k' hk'
    cases hl : lookupStatus acc₁ k' with
    | some st =>
      have hl₂ : lookupStatus acc₂ k' = some st := by
        rw [← hagree]
        exact hl
      rw [lookupStatus_append_of_some hl, lookupStatus_append_of_some hl₂]
    | none =>
      have hl₂ : lookupStatus acc₂ k' = none := by
        rw [← hagree]
        exact hl
      rw [lookupStatus_append_of_none hl, lookupStatus_append_of_none hl₂,
        lookupStatus_single, lookupStatus_single]
      by_cases hkn : n = k'
      · subst hkn
        rw [if_pos rfl, if_pos rfl]
        have hub : upstreamBlocked edges acc₁ n = upstreamBlocked edges acc₂ n := by
          apply upstreamBlocked_congr
          intro e he hen
          apply hacc
          intro a ha hr
          exact hk' a ha (Reach.tail hr (hen ▸ he))
        have hfn : fails₁ n = fails₂ n := hf n (fun hn => hk' n hn Reach.refl)
        rw [hub, hfn]
      · rw [if_neg hkn, if_neg hkn]

end FailureMaster

/-- The four execution-graph nodes of the `volanalysis` branch. -/
def volBranchNodes : List String :=
  [ "frameflow.volanalysis.modelspec", "frameflow.volanalysis.level1design",
    "frameflow.volanalysis.level1estimate",
    "frameflow.volanalysis.contrastestimate" ]

/-- The four execution-graph nodes of the cloned `surfanalysis` branch. -/
def surfBranchNodes : List String :=
  [ "frameflow.surfanalysis.modelspec", "frameflow.surfanalysis.level1design",
    "frameflow.surfanalysis.level1estimate",
    "frameflow.surfanalysis.contrastestimate" ]

/-- The forward closure of the `volanalysis` branch in the metaflow graph. -/
def volClosure : List String := volBranchNodes ++ ["datasink"]

/-- The forward closure of the `surfanalysis` branch in the metaflow graph. -/
def surfClosure : List String := surfBranchNodes ++ ["datasink"]

theorem vol_surf_unreachable :
    ∀ a ∈ volBranchNodes, ∀ n ∈ surfBranchNodes, ¬ Reach metaEdgesN a n := by
  intro a ha n hn h
  have hsub : ∀ x ∈ volBranchNodes, x ∈ volClosure := by decide
  have hcl : ∀ e ∈ metaEdgesN, e.1 ∈ volClosure → e.2 ∈ volClosure := by decide
  have hnot : ∀ x ∈ surfBranchNodes, x ∉ volClosure := by decide
  exact hnot n hn (reach_closed hcl (hsub a ha) h)

theorem surf_vol_unreachable :
    ∀ a ∈ surfBranchNodes, ∀ n ∈ volBranchNodes, ¬ Reach metaEdgesN a n := by
  intro a ha n hn h
  have hsub : ∀ x ∈ surfBranchNodes, x ∈ surfClosure := by decide
  have hcl : ∀ e ∈ metaEdgesN, e.1 ∈ surfClosure → e.2 ∈ surfClosure := by decide
  have hnot : ∀ x ∈ volBranchNodes, x ∉ surfClosure := by decide
  exact hnot n hn (reach_closed hcl (hsub a ha) h)

/-- C5: when a node `A` ends `failed`, every node strictly reachable from
`A` by following connections forward ends `skipped`; the status of a node
not reachable from any member of a set of nodes is independent of those
nodes' own execution outcomes.  Concretely the `volanalysis` and
`surfanalysis` branches share no graph nodes, neither branch reaches the
other, and the surfanalysis statuses are unchanged under any change to the
volanalysis nodes' execution outcomes. -/
theorem failed_skips_downstream_only :
    (∀ (α : Type) [_inst : DecidableEq α] (edges : List (α × α))
        (fails : α → Bool) (ts : List α) (A n : α),
        ts.Nodup → topoOrderB edges ts = true →
        (∀ e ∈ edges, e.1 ∈ ts) →
        lookupStatus (finalStatuses edges fails ts []) A =
          some NodeStatus.failed →
        Reach edges A n → n ≠ A → n ∈ ts →
        lookupStatus (finalStatuses edges fails ts []) n =
          some NodeStatus.skipped) ∧
    (∀ (α : Type) [_inst : DecidableEq α] (edges : List (α × α))
        (fails₁ fails₂ : α → Bool) (F : List α),
        (∀ x, x ∉ F → fails₁ x = fails₂ x) →
        ∀ (ts : List α) (k : α), (∀ a ∈ F, ¬ Reach edges a k) →
          lookupStatus (finalStatuses edges fails₁ ts []) k =
            lookupStatus (finalStatuses edges fails₂ ts []) k) ∧
    (∀ x ∈ volBranchNodes, x ∉ surfBranchNodes) ∧
    (∀ a ∈ volBranchNodes, ∀ n ∈ surfBranchNodes, ¬ Reach metaEdgesN a n) ∧
    (∀ a ∈ surfBranchNodes, ∀ n ∈ volBranchNodes, ¬ Reach metaEdgesN a n) ∧
    topoOrderB metaEdgesN metaNodes = true ∧
    (∀ fails₁ fails₂ : String → Bool,
      (∀ x, x ∉ volBranchNodes → fails₁ x = fails₂ x) →
      ∀ n ∈ surfBranchNodes,
        lookupStatus (finalStatuses metaEdgesN fails₁ metaNodes []) n =
          lookupStatus (finalStatuses metaEdgesN fails₂ metaNodes []) n) := by
  refine ⟨?_, ?_, by decide, vol_surf_unreachable, surf_vol_unreachable,
    by decide, ?_⟩
  · intro α _inst edges fails ts A n hnd htopo hend hA hreach hne hn
    obtain ⟨st, hst⟩ := finalStatuses_isSome edges fails ts [] n hn
    have hskip := finalStatuses_skip_aux edges fails A
      (finalStatuses edges fails ts []) hA ts [] rfl hnd htopo
      (fun e he => Or.inr (hend e he))
      (fun x _ => rfl)
      (fun k st0 h0 _ _ => absurd h0 (by simp [lookupStatus]))
      (fun st0 h0 => absurd h0 (by simp [lookupStatus]))
      n st hst hreach hne
    rw [hst, hskip]
  · intro α _inst edges fails₁ fails₂ F hf ts k hk
    exact finalStatuses_independent_aux edges fails₁ fails₂ F hf ts [] []
      (fun _ _ => rfl) k hk
  · intro fails₁ fails₂ hf n hn
    refine finalStatuses_independent_aux metaEdgesN fails₁ fails₂
      volBranchNodes hf metaNodes [] [] (fun _ _ => rfl) n ?_
    intro a ha h
    exact vol_surf_unreachable a ha n hn h

theorem failed_skips_downstream_only_witness :
    lookupStatus
      (finalStatuses [("u", "v")] (fun x => x == "u") ["u", "v"] []) "v" =
      some NodeStatus.skipped :=
  failed_skips_downstream_only.1 String [("u", "v")] (fun x => x == "u")
    ["u", "v"] "u" "v" (by decide) (by decide) (by decide) (by rfl)
    (Reach.tail Reach.refl (by decide)) (by decide) (by decide)

/-- Look up a recorded value by key in an association list. -/
def lookupVal (l : List (String × Nat)) (k : String) : Option Nat :=
  (l.find? (fun p => p.1 == k)).map (·.2)

theorem lookupVal_append_of_some {l : List (String × Nat)} {k : String}
    {v : Nat} (h : lookupVal l k = some v) (l' : List (String × Nat)) :
    lookupVal (l ++ l') k = some v := by
  simp only [lookupVal, Option.map_eq_some'] at h ⊢
  obtain ⟨p, hp, hpv⟩ := h
  exact ⟨p, by rw [List.find?_append, hp]; rfl, hpv⟩

theorem lookupVal_append_of_none {l : List (String × Nat)} {k : String}
    (h : lookupVal l k = none) (l' : List (String × Nat)) :
    lookupVal (l ++ l') k = lookupVal l' k := by
  simp only [lookupVal, Option.map_eq_none'] at h
  simp only [lookupVal, List.find?_append, h, Option.none_or]

/-- Modelled from the spec: the cache key of a node is derived from the
node's interface identity, its resolved parameter values, and, recursively,
the cache keys of all upstream producers feeding its inputs (`fuel` bounds
the recursion depth; any value at least the graph depth is exact on a
DAG). -/
def cacheKey (params : String → String) (preds : String → List String) :
    Nat → String → String
  | 0, n => n
  | fuel + 1, n =>
    n ++ "[" ++ params n ++ "](" ++
      String.intercalate "," ((preds n).map (cacheKey params preds fuel)) ++ ")"

/-- The state threaded through a run: the shared cache store (key ->
recorded output), the reported outputs of this run (node -> output), and
the number of fresh (non-cached) node executions performed. -/
structure RunState where
  cache : List (String × Nat)
  outs : List (String × Nat)
  fresh : Nat
deriving DecidableEq, Repr

/-- Modelled from the spec: execute the flattened graph in dependency
order against the cache store.  Before executing a node, its key is looked
up; on a hit the recorded output is reused and no fresh execution happens;
on a miss the node's deterministic computation `exec` runs on the outputs
of its upstream producers and the result is recorded under the key. -/
def runGraph (exec : String → List Nat → Nat) (key : String → String)
    (preds : String → List String) : List String → RunState → RunState
  | [], st => st
  | n :: rest, st =>
    match lookupVal st.cache (key n) with
    | some v =>
      runGraph exec key preds rest { st with outs := st.outs ++ [(n, v)] }
    | none =>
      let v := exec n ((preds n).map (fun p => (lookupVal st.outs p).getD 0))
      runGraph exec key preds rest
        { cache := st.cache ++ [(key n, v)],
          outs := st.outs ++ [(n, v)],
          fresh := st.fresh + 1 }

theorem drop_len_append {β : Type*} (l₁ : List β) (x : β) (l₂ : List β) :
    ((l₁ ++ [x]) ++ l₂).drop l₁.length = x :: l₂ := by
  rw [List.append_assoc]
  exact List.drop_left l₁ ([x] ++ l₂)

theorem runGraph_cache_extends (exec : String → List Nat → Nat)
    (key : String → String) (preds : String → List String) :
    ∀ (ts : List String) (st : RunState),
      ∃ Δ, (runGraph exec key preds ts st).cache = st.cache ++ Δ := by
  intro ts
  induction ts with
  | nil => intro st; exact ⟨[], by simp [runGraph]⟩
  | cons n rest ih =>
    intro st
    simp only [runGraph]
    cases h : lookupVal st.cache (key n) with
    | some v => exact ih _
    | none =>
      obtain ⟨Δ, hΔ⟩ := ih
        { cache := st.cache ++ [(key n,
            exec n ((preds n).map (fun p => (lookupVal st.outs p).getD 0)))],
          outs := st.outs ++ [(n,
            exec n ((preds n).map (fun p => (lookupVal st.outs p).getD 0)))],
          fresh := st.fresh + 1 }
      refine ⟨(key n,
        exec n ((preds n).map (fun p => (lookupVal st.outs p).getD 0))) :: Δ, ?_⟩
      rw [hΔ]
      simp

theorem runGraph_outs_extends (exec : String → List Nat → Nat)
    (key : String → String) (preds : String → List String) :
    ∀ (ts : List String) (st : RunState),
      ∃ Δ, (runGraph exec key preds ts st).outs = st.outs ++ Δ := by
  intro ts
  induction ts with
  | nil => intro st; exact ⟨[], by simp [runGraph]⟩
  | cons n rest ih =>
    intro st
    simp only [runGraph]
    cases h : lookupVal st.cache (key n) with
    | some v =>
      obtain ⟨Δ, hΔ⟩ := ih { st with outs := st.outs ++ [(n, v)] }
      refine ⟨(n, v) :: Δ, ?_⟩
      rw [hΔ]
      simp
    | none =>
      obtain ⟨Δ, hΔ⟩ := ih
        { cache := st.cache ++ [(key n,
            exec n ((preds n).map (fun p => (lookupVal st.outs p).getD 0)))],
          outs := st.outs ++ [(n,
            exec n ((preds n).map (fun p => (lookupVal st.outs p).getD 0)))],
          fresh := st.fresh + 1 }
      refine ⟨(n,
        exec n ((preds n).map (fun p => (lookupVal st.outs p).getD 0))) :: Δ, ?_⟩
      rw [hΔ]
      simp

theorem runGraph_rerun (exec : String → List Nat → Nat)
    (key : String → String) (preds : String → List String) :
    ∀ (ts : List String) (st₁ : RunState) (o₂ : List (String × Nat)) (f₂ : Nat),
      runGraph exec key preds ts
        { cache := (runGraph exec key preds ts st₁).cache,
          outs := o₂, fresh := f₂ } =
      { cache := (runGraph exec key preds ts st₁).cache,
        outs := o₂ ++ ((runGraph exec key preds ts st₁).outs.drop st₁.outs.length),
        fresh := f₂ } := by
  intro ts
  induction ts with
  | nil =>
    intro st₁ o₂ f₂
    simp [runGraph]
  | cons n rest ih =>
    intro st₁ o₂ f₂
    obtain ⟨v, st', hstep, houts', hkey⟩ :
        ∃ v st', runGraph exec key preds (n :: rest) st₁ =
            runGraph exec key preds rest st' ∧
          st'.outs = st₁.outs ++ [(n, v)] ∧
          lookupVal st'.cache (key n) = some v := by
      cases h : lookupVal st₁.cache (key n) with
      | some v =>
        refine ⟨v, { st₁ with outs := st₁.outs ++ [(n, v)] }, ?_, rfl, ?_⟩
        · simp [runGraph, h]
        · exact h
      | none =>
        refine ⟨exec n ((preds n).map (fun p => (lookupVal st₁.outs p).getD 0)),
          { cache := st₁.cache ++ [(key n,
              exec n ((preds n).map (fun p => (lookupVal st₁.outs p).getD 0)))],
            outs := st₁.outs ++ [(n,
              exec n ((preds n).map (fun p => (lookupVal st₁.outs p).getD 0)))],
            fresh := st₁.fresh + 1 }, ?_, rfl, ?_⟩
        · simp [runGraph, h]
        · show lookupVal (st₁.cache ++ [(key n,
            exec n ((preds n).map (fun p => (lookupVal st₁.outs p).getD 0)))])
            (key n) = some (exec n ((preds n).map
              (fun p => (lookupVal st₁.outs p).getD 0)))
          rw [lookupVal_append_of_none h]
          simp [lookupVal, List.find?]
    obtain ⟨Δc, hΔc⟩ := runGraph_cache_extends exec key preds rest st'
    obtain ⟨Δo, hΔo⟩ := runGraph_outs_extends exec key preds rest st'
    have hlook : lookupVal (runGraph exec key preds rest st').cache (key n) =
        some v := by
      rw [hΔc]
      exact lookupVal_append_of_some hkey Δc
    rw [hstep]
    have h2 : runGraph exec key preds (n :: rest)
        { cache := (runGraph exec key preds rest st').cache,
          outs := o₂, fresh := f₂ } =
        runGraph exec key preds rest
          { cache := (runGraph exec key preds rest st').cache,
            outs := o₂ ++ [(n, v)], fresh := f₂ } := by
      simp only [runGraph, hlook]
    have hdrop : (runGraph exec key preds rest st').outs.drop st₁.outs.length =
        (n, v) :: (runGraph exec key preds rest st').outs.drop st'.outs.length := by
      rw [hΔo, houts', drop_len_append, List.drop_left]
    rw [h2, ih st' (o₂ ++ [(n, v)]) f₂, hdrop]
    simp

/-- C4: re-running an unchanged workflow against the cache populated by the
first run performs zero fresh executions (every node is a cache hit), and
the reported outputs of the second run are identical to those of the first;
the cache itself is unchanged by the second run.  The cache key of each
node is derived from its identity, parameters and upstream keys
(`cacheKey`), and is unchanged between the two runs. -/
theorem rerun_all_cache_hits (exec : String → List Nat → Nat)
    (params : String → String) (preds : String → List String)
    (fuel : Nat) (ts : List String) :
    (runGraph exec (cacheKey params preds fuel) preds ts
      { cache := (runGraph exec (cacheKey params preds fuel) preds ts
          { cache := [], outs := [], fresh := 0 }).cache,
        outs := [], fresh := 0 }).fresh = 0 ∧
    (runGraph exec (cacheKey params preds fuel) preds ts
      { cache := (runGraph exec (cacheKey params preds fuel) preds ts
          { cache := [], outs := [], fresh := 0 }).cache,
        outs := [], fresh := 0 }).outs =
      (runGraph exec (cacheKey params preds fuel) preds ts
        { cache := [], outs := [], fresh := 0 }).outs ∧
    (runGraph exec (cacheKey params preds fuel) preds ts
      { cache := (runGraph exec (cacheKey params preds fuel) preds ts
          { cache := [], outs := [], fresh := 0 }).cache,
        outs := [], fresh := 0 }).cache =
      (runGraph exec (cacheKey params preds fuel) preds ts
        { cache := [], outs := [], fresh := 0 }).cache := by
  have h := runGraph_rerun exec (cacheKey params preds fuel) preds ts
    { cache := [], outs := [], fresh := 0 } [] 0
  rw [h]
  simp

section Scheduler

variable {α : Type*} [DecidableEq α]

/-- Scheduler states of an execution-graph node
(`pending → ready → running → succeeded / failed / skipped`). -/
inductive SchedStatus where
  | pending
  | ready
  | running
  | succeeded
  | failed
  | skipped
deriving DecidableEq, Repr

/-- Point update of a status assignment. -/
def setStatus (st : α → SchedStatus) (m : α) (v : SchedStatus) :
    α → SchedStatus :=
  fun x => if x = m then v else st x

/-- The number of graph nodes currently in the running state. -/
def runningCount (nodes : List α) (st : α → SchedStatus) : Nat :=
  nodes.countP (fun n => st n == SchedStatus.running)

/-- The initial scheduler state: every node pending. -/
def initSched : α → SchedStatus := fun _ => SchedStatus.pending

/-- Modelled from the spec: the scheduler's small-step transitions under a
worker bound `N`.  A pending node whose upstream dependencies all succeeded
becomes ready; a ready node enters running only while fewer than `N` nodes
run; a running node finishes as succeeded or failed; a pending node with a
failed or skipped upstream dependency becomes skipped. -/
inductive SchedStep (nodes : List α) (edges : List (α × α)) (N : Nat) :
    (α → SchedStatus) → (α → SchedStatus) → Prop where
  | markReady (st : α → SchedStatus) (m : α) (hm : m ∈ nodes)
      (hp : st m = SchedStatus.pending)
      (hup : ∀ p, (p, m) ∈ edges → st p = SchedStatus.succeeded) :
      SchedStep nodes edges N st (setStatus st m SchedStatus.ready)
  | dispatch (st : α → SchedStatus) (m : α) (hm : m ∈ nodes)
      (hr : st m = SchedStatus.ready)
      (hcount : runningCount nodes st < N) :
      SchedStep nodes edges N st (setStatus st m SchedStatus.running)
  | finishOk (st : α → SchedStatus) (m : α) (hm : m ∈ nodes)
      (hr : st m = SchedStatus.running) :
      SchedStep nodes edges N st (setStatus st m SchedStatus.succeeded)
  | finishFail (st : α → SchedStatus) (m : α) (hm : m ∈ nodes)
      (hr : st m = SchedStatus.running) :
      SchedStep nodes edges N st (setStatus st m SchedStatus.failed)
  | skip (st : α → SchedStatus) (m : α) (hm : m ∈ nodes)
      (hp : st m = SchedStatus.pending) (p : α) (hpe : (p, m) ∈ edges)
      (hbad : st p = SchedStatus.failed ∨ st p = SchedStatus.skipped) :
      SchedStep nodes edges N st (setStatus st m SchedStatus.skipped)

/-- The scheduler safety invariant: the worker bound holds, and every
ready or running node has all of its upstream dependencies succeeded. -/
def SchedInv (nodes : List α) (edges : List (α × α)) (N : Nat)
    (st : α → SchedStatus) : Prop :=
  runningCount nodes st ≤ N ∧
  ∀ n, (st n = SchedStatus.ready ∨ st n = SchedStatus.running) →
    ∀ p, (p, n) ∈ edges → st p = SchedStatus.succeeded

theorem setStatus_self (st : α → SchedStatus) (m : α) (v : SchedStatus) :
    setStatus st m v m = v := by
  simp [setStatus]

theorem setStatus_ne {m x : α} (h : x ≠ m) (st : α → SchedStatus)
    (v : SchedStatus) : setStatus st m v x = st x := by
  simp [setStatus, h]

theorem runningCount_set_le {st : α → SchedStatus} {m : α} {v : SchedStatus}
    (hv : (v == SchedStatus.running) = false) :
    ∀ nodes : List α,
      runningCount nodes (setStatus st m v) ≤ runningCount nodes st := by
  intro nodes
  induction nodes with
  | nil => exact Nat.le_refl _
  | cons x xs ih =>
    simp only [runningCount, List.countP_cons] at *
    by_cases hxm : x = m
    · subst hxm
      rw [setStatus_self, hv]
      exact Nat.le_trans (by simpa using ih) (Nat.le_add_right _ _)
    · rw [setStatus_ne hxm]
      exact Nat.add_le_add_right ih _

theorem runningCount_set_of_not_mem {st : α → SchedStatus} {m : α}
    {v : SchedStatus} :
    ∀ nodes : List α, m ∉ nodes →
      runningCount nodes (setStatus st m v) = runningCount nodes st := by
  intro nodes
  induction nodes with
  | nil => intro _; rfl
  | cons x xs ih =>
    intro hm
    have hxm : x ≠ m := fun h => hm (h ▸ List.mem_cons_self x xs)
    simp only [runningCount, List.countP_cons] at *
    rw [setStatus_ne hxm, ih (fun h => hm (List.mem_cons_of_mem x h))]

theorem runningCount_set_running {st : α → SchedStatus} {m : α}
    (hst : st m ≠ SchedStatus.running) :
    ∀ nodes : List α, nodes.Nodup →
      runningCount nodes (setStatus st m SchedStatus.running) ≤
        runningCount nodes st + 1 := by
  intro nodes
  induction nodes with
  | nil => intro _; exact Nat.zero_le _
  | cons x xs ih =>
    intro hnd
    obtain ⟨hxmem, hnd'⟩ := List.nodup_cons.mp hnd
    by_cases hxm : x = m
    · subst hxm
      have h1 : runningCount (x :: xs) (setStatus st x SchedStatus.running) =
          runningCount xs (setStatus st x SchedStatus.running) + 1 := by
        simp only [runningCount, List.countP_cons, setStatus_self]
        simp
      have h2 : runningCount xs (setStatus st x SchedStatus.running) =
          runningCount xs st :=
        runningCount_set_of_not_mem xs hxmem
      have h3 : runningCount (x :: xs) st = runningCount xs st := by
        simp only [runningCount, List.countP_cons]
        rw [show (st x == SchedStatus.running) = false by simpa using hst]
        simp
      omega
    · have h1 : runningCount (x :: xs) (setStatus st m SchedStatus.running) =
          runningCount xs (setStatus st m SchedStatus.running) +
            (if (st x == SchedStatus.running) = true then 1 else 0) := by
        simp only [runningCount, List.countP_cons, setStatus_ne hxm]
      have h3 : runningCount (x :: xs) st = runningCount xs st +
          (if (st x == SchedStatus.running) = true then 1 else 0) := by
        simp only [runningCount, List.countP_cons]
      have h4 := ih hnd'
      omega

theorem schedStep_inv {nodes : List α} {edges : List (α × α)} {N : Nat}
    (hnd : nodes.Nodup) {st st' : α → SchedStatus}
    (hstep : SchedStep nodes edges N st st')
    (hinv : SchedInv nodes edges N st) : SchedInv nodes edges N st' := by
  obtain ⟨hcount, hdeps⟩ := hinv
  cases hstep with
  | markReady m hm hp hup =>
    refine ⟨Nat.le_trans (runningCount_set_le (by decide) nodes) hcount, ?_⟩
    intro n hn p hpe
    by_cases hnm : n = m
    · subst hnm
      have hps := hup p hpe
      have hpm : p ≠ n := fun hEq => by
        rw [hEq, hp] at hps
        exact SchedStatus.noConfusion hps
      rw [setStatus_ne hpm]
      exact hps
    · rw [setStatus_ne hnm] at hn
      have hps := hdeps n hn p hpe
      have hpm : p ≠ m := fun hEq => by
        rw [hEq, hp] at hps
        exact SchedStatus.noConfusion hps
      rw [setStatus_ne hpm]
      exact hps
  | dispatch m hm hr hcnt =>
    refine ⟨?_, ?_⟩
    · have h1 := runningCount_set_running
        (fun h => SchedStatus.noConfusion (hr.symm.trans h)) nodes hnd
      omega
    · intro n hn p hpe
      by_cases hnm : n = m
      · subst hnm
        have hps := hdeps n (Or.inl hr) p hpe
        have hpm : p ≠ n := fun hEq => by
          rw [hEq, hr] at hps
          exact SchedStatus.noConfusion hps
        rw [setStatus_ne hpm]
        exact hps
      · rw [setStatus_ne hnm] at hn
        have hps := hdeps n hn p hpe
        have hpm : p ≠ m := fun hEq => by
          rw [hEq, hr] at hps
          exact SchedStatus.noConfusion hps
        rw [setStatus_ne hpm]
        exact hps
  | finishOk m hm hr =>
    refine ⟨Nat.le_trans (runningCount_set_le (by decide) nodes) hcount, ?_⟩
    intro n hn p hpe
    by_cases hnm : n = m
    · subst hnm
      rw [setStatus_self] at hn
      rcases hn with h | h <;> exact SchedStatus.noConfusion h
    · rw [setStatus_ne hnm] at hn
      have hps := hdeps n hn p hpe
      by_cases hpm : p = m
      · subst hpm
        rw [setStatus_self]
      · rw [setStatus_ne hpm]
        exact hps
  | finishFail m hm hr =>
    refine ⟨Nat.le_trans (runningCount_set_le (by decide) nodes) hcount, ?_⟩
    intro n hn p hpe
    by_cases hnm : n = m
    · subst hnm
      rw [setStatus_self] at hn
      rcases hn with h | h <;> exact SchedStatus.noConfusion h
    · rw [setStatus_ne hnm] at hn
      have hps := hdeps n hn p hpe
      have hpm : p ≠ m := fun hEq => by
        rw [hEq, hr] at hps
        exact SchedStatus.noConfusion hps
      rw [setStatus_ne hpm]
      exact hps
  | skip m hm hp p0 hpe0 hbad =>
    refine ⟨Nat.le_trans (runningCount_set_le (by decide) nodes) hcount, ?_⟩
    intro n hn p hpe
    by_cases hnm : n = m
    · subst hnm
      rw [setStatus_self] at hn
      rcases hn with h | h <;> exact SchedStatus.noConfusion h
    · rw [setStatus_ne hnm] at hn
      have hps := hdeps n hn p hpe
      have hpm : p ≠ m := fun hEq => by
        rw [hEq, hp] at hps
        exact SchedStatus.noConfusion hps
      rw [setStatus_ne hpm]
      exact hps

theorem sched_inv_reachable {nodes : List α} {edges : List (α × α)} {N : Nat}
    (hnd : nodes.Nodup) {s : α → SchedStatus}
    (h : Relation.ReflTransGen (SchedStep nodes edges N) initSched s) :
    SchedInv nodes edges N s := by
  induction h with
  | refl =>
    refine ⟨?_, ?_⟩
    · have : runningCount nodes (initSched (α := α)) = 0 := by
        simp [runningCount, initSched, List.countP_eq_zero]
      omega
    · intro n hn
      rcases hn with h | h <;> exact SchedStatus.noConfusion h
  | tail _ hstep ih => exact schedStep_inv hnd hstep ih

end Scheduler

/-- C7: in every scheduler state reachable from the all-pending initial
state under worker bound `N`, at most `N` nodes are running, and a node is
running only when all of its upstream dependencies have already succeeded
(so no node enters running before its dependencies reach terminal
success); instantiated at the metaflow graph with `N = 2`, the worker
count the script passes as `plugin_args` `n_procs`. -/
theorem bounded_workers_and_dependency_order :
    (∀ (α : Type) [_inst : DecidableEq α] (nodes : List α)
        (edges : List (α × α)) (N : Nat) (s : α → SchedStatus),
        nodes.Nodup →
        Relation.ReflTransGen (SchedStep nodes edges N) initSched s →
        runningCount nodes s ≤ N ∧
        (∀ n, s n = SchedStatus.running →
          ∀ p, (p, n) ∈ edges → s p = SchedStatus.succeeded)) ∧
    (∀ s : String → SchedStatus,
      Relation.ReflTransGen (SchedStep metaNodes metaEdgesN 2) initSched s →
      runningCount metaNodes s ≤ 2 ∧
      (∀ n, s n = SchedStatus.running →
        ∀ p, (p, n) ∈ metaEdgesN → s p = SchedStatus.succeeded)) := by
  have hgen : ∀ (α : Type) [DecidableEq α] (nodes : List α)
      (edges : List (α × α)) (N : Nat) (s : α → SchedStatus),
      nodes.Nodup →
      Relation.ReflTransGen (SchedStep nodes edges N) initSched s →
      runningCount nodes s ≤ N ∧
      (∀ n, s n = SchedStatus.running →
        ∀ p, (p, n) ∈ edges → s p = SchedStatus.succeeded) := by
    intro α _ nodes edges N s hnd hreach
    obtain ⟨h1, h2⟩ := sched_inv_reachable hnd hreach
    exact ⟨h1, fun n hn p hpe => h2 n (Or.inr hn) p hpe⟩
  exact ⟨hgen, fun s hreach =>
    hgen String metaNodes metaEdgesN 2 s (by decide) hreach⟩

theorem bounded_workers_and_dependency_order_witness :
    runningCount ["a", "b"]
      (setStatus (setStatus initSched "a" SchedStatus.ready) "a"
        SchedStatus.running) ≤ 2 ∧
    (∀ n, setStatus (setStatus initSched "a" SchedStatus.ready) "a"
        SchedStatus.running n = SchedStatus.running →
      ∀ p, (p, n) ∈ ([("a", "b")] : List (String × String)) →
        setStatus (setStatus initSched "a" SchedStatus.ready) "a"
          SchedStatus.running p = SchedStatus.succeeded) := by
  refine bounded_workers_and_dependency_order.1 String ["a", "b"]
    [("a", "b")] 2 _ (by decide) ?_
  have h1 : SchedStep ["a", "b"] [("a", "b")] 2 initSched
      (setStatus initSched "a" SchedStatus.ready) :=
    SchedStep.markReady initSched "a" (by decide) rfl
      (fun p hp => by simp at hp)
  have h2 : SchedStep ["a", "b"] [("a", "b")] 2
      (setStatus initSched "a" SchedStatus.ready)
      (setStatus (setStatus initSched "a" SchedStatus.ready) "a"
        SchedStatus.running) :=
    SchedStep.dispatch (setStatus initSched "a" SchedStatus.ready) "a"
      (by decide) (by rw [setStatus_self]) (by decide)
  exact Relation.ReflTransGen.tail
    (Relation.ReflTransGen.tail Relation.ReflTransGen.refl h1) h2

/-- A member workflow: a name, its member nodes, and its internal
connections (endpoints relative to the member's nodes). -/
structure SubWorkflow where
  wname : String
  wnodes : List String
  wedges : List (Endpoint × Endpoint)
deriving DecidableEq, Repr

/-- The `volanalysis` workflow as the script defines it (lines 109-145). -/
def volanalysisW : SubWorkflow :=
  { wname := "volanalysis",
    wnodes := ["modelspec", "level1design", "level1estimate", "contrastestimate"],
    wedges := volPairs }

/-- The `preproc` workflow member (lines 40-101; internal connections as
recorded without the repeated pairs). -/
def preprocW : SubWorkflow :=
  { wname := "preproc",
    wnodes := ["sliceTiming", "realign", "art", "bbregister", "volsmooth",
      "fssource", "binarize", "dilate"],
    wedges := preprocPairsDedup }

/-- Modelled from the spec: `clone(new_name)` produces a deep,
independently mutable copy of a workflow rooted at the new name: the same
member nodes and internal connections, with fresh flattened identities
under the new root; the original is unaffected. -/
def SubWorkflow.clone (w : SubWorkflow) (n : String) : SubWorkflow :=
  { w with wname := n }

/-- `surfanalysis = volanalysis.clone(name='surfanalysis')` (line 310). -/
def surfanalysisW : SubWorkflow := volanalysisW.clone "surfanalysis"

/-- Flattened node identities of a member workflow. -/
def SubWorkflow.flatIds (w : SubWorkflow) : List String :=
  w.wnodes.map (fun m => w.wname ++ "." ++ m)

/-- Flattened internal connections of a member workflow. -/
def SubWorkflow.flatEdges (w : SubWorkflow) : List (Endpoint × Endpoint) :=
  w.wedges.map (fun e =>
    (⟨w.wname ++ "." ++ e.1.node, e.1.port⟩,
      ⟨w.wname ++ "." ++ e.2.node, e.2.port⟩))

/-- The identity correspondence between the original and the clone:
replace the `volanalysis` root by `surfanalysis`. -/
def swapRoot (s : String) : String :=
  "surfanalysis." ++ (s.drop "volanalysis.".length)

/-- The state of the `frameflow` container: its member workflows and its
own connection list. -/
structure FrameState where
  members : List SubWorkflow
  fedges : List (Endpoint × Endpoint)
deriving DecidableEq, Repr

/-- Look up a member workflow by name. -/
def findMember (st : FrameState) (n : String) : Option SubWorkflow :=
  st.members.find? (fun w => w.wname == n)

/-- `frameflow` after its first `connect` call (lines 153-178). -/
def frameState0 : FrameState :=
  { members := [preprocW, volanalysisW], fedges := framePairs1 }

/-- The script's surfanalysis integration (lines 310-324): clone
`volanalysis` under the name `surfanalysis`, add the clone as a member,
and record the new connections. -/
def addSurfanalysis (st : FrameState) : FrameState :=
  { members := st.members ++ [volanalysisW.clone "surfanalysis"],
    fedges := st.fedges ++ frameSurfPairs }

/-- C6: `clone` keeps the member nodes and internal connection topology
and only reroots the name, so the clone's flattened identities are
disjoint from the original's and its connection topology is the image of
the original's under the root-renaming bijection; integrating the
`surfanalysis` clone into `frameflow` leaves the `volanalysis` member -
its nodes, its internal connections, and the frameflow connections
targeting it - unchanged. -/
theorem clone_disjoint_isomorphic_frame :
    (∀ (w : SubWorkflow) (n : String),
      (w.clone n).wname = n ∧ (w.clone n).wnodes = w.wnodes ∧
      (w.clone n).wedges = w.wedges) ∧
    surfanalysisW = volanalysisW.clone "surfanalysis" ∧
    (∀ x ∈ surfanalysisW.flatIds, x ∉ volanalysisW.flatIds) ∧
    surfanalysisW.flatIds = volanalysisW.flatIds.map swapRoot ∧
    surfanalysisW.flatEdges = volanalysisW.flatEdges.map
      (fun e => (⟨swapRoot e.1.node, e.1.port⟩, ⟨swapRoot e.2.node, e.2.port⟩)) ∧
    volanalysisW.flatIds.Nodup ∧
    surfanalysisW.flatIds.Nodup ∧
    findMember (addSurfanalysis frameState0) "volanalysis" = some volanalysisW ∧
    findMember frameState0 "volanalysis" = some volanalysisW ∧
    (addSurfanalysis frameState0).fedges.filter
        (fun e => decide (e.2.node ∈ volanalysisW.flatIds)) =
      frameState0.fedges.filter
        (fun e => decide (e.2.node ∈ volanalysisW.flatIds)) :=
  ⟨fun w n => ⟨rfl, rfl, rfl⟩, rfl, by decide, by decide, by decide,
    by decide, by decide, by rfl, by rfl, by decide⟩

theorem clone_disjoint_isomorphic_frame_witness :
    ("surfanalysis.modelspec" : String) ∉ volanalysisW.flatIds :=
  clone_disjoint_isomorphic_frame.2.2.1 "surfanalysis.modelspec" (by decide)

/-- A parametric modulator (`Bunch(name=..., poly=..., param=...)`). -/
structure PModBunch where
  name : List String
  poly : List (List ℚ)
  param : List (List ℚ)
deriving DecidableEq, Repr

/-- The run-description `Bunch` built by `subjectinfo`. -/
structure Bunch where
  conditions : List String
  onsets : List (List ℚ)
  durations : List (List ℚ)
  amplitudes : Option (List ℚ)
  tmod : Option (List ℚ)
  pmod : List (Option PModBunch)
  regressor_names : Option (List String)
  regressors : Option (List ℚ)
deriving DecidableEq, Repr

/-- `subjectinfo` (script lines 236-273): builds the subject-specific model
description.  The `subject_id` parameter is never used in the body; the
output list appends the same model parameters twice, once per functional
run. -/
def subjectinfo (subject_id : String) : List Bunch :=
  let namesOfConditions := ["basic", "condition1", "condition2", "condition3"]
  let onsetTimes : List (List ℚ) :=
    [ [1, 10, 42, 49.6, 66.1, 74.1, 97.6, 113.6, 122.2, 130.2, 137.2, 153.7,
        169.2, 185.7, 201.8, 290.4, 313.4, 321.4, 377.5, 401.5, 410, 418.6,
        442.1, 473.6],
      [17.5, 82.1, 89.6, 145.2, 225.3, 242.3, 281.4, 426.6],
      [26, 162.2, 209.3, 249.3, 265.9, 205.4, 450.1, 386],
      [34, 273.4, 329.5, 338.5, 354, 362, 370, 466.4] ]
  let para_modu : List (Option PModBunch) :=
    [ none,
      some { name := ["target2", "target3"], poly := [[1], [1]],
             param := [[0, 0, 1, 0, 0, 0, 0, 0], [0, 0, 0, 0, 1, 0, 0, 1]] },
      some { name := ["target2", "target3"], poly := [[1], [1]],
             param := [[0, 0, 0, 1, 1, 1, 0, 0], [1, 0, 0, 0, 0, 0, 1, 1]] },
      some { name := ["target2", "target3"], poly := [[1], [1]],
             param := [[0, 1, 0, 0, 0, 1, 0, 1], [0, 0, 0, 0, 1, 0, 1, 0]] } ]
  (List.range 2).map (fun _ =>
    { conditions := namesOfConditions,
      onsets := onsetTimes,
      durations := namesOfConditions.map (fun _ => ([2] : List ℚ)),
      amplitudes := none,
      tmod := none,
      pmod := para_modu,
      regressor_names := none,
      regressors := none })

/-- The single run description every call of `subjectinfo` repeats twice:
the four fixed conditions, their onset times, a duration of 2 seconds per
condition, and the fixed parametric modulators. -/
def runBunch : Bunch :=
  { conditions := ["basic", "condition1", "condition2", "condition3"],
    onsets := [ [1, 10, 42, 49.6, 66.1, 74.1, 97.6, 113.6, 122.2, 130.2,
        137.2, 153.7, 169.2, 185.7, 201.8, 290.4, 313.4, 321.4, 377.5, 401.5,
        410, 418.6, 442.1, 473.6],
      [17.5, 82.1, 89.6, 145.2, 225.3, 242.3, 281.4, 426.6],
      [26, 162.2, 209.3, 249.3, 265.9, 205.4, 450.1, 386],
      [34, 273.4, 329.5, 338.5, 354, 362, 370, 466.4] ],
    durations := [[2], [2], [2], [2]],
    amplitudes := none,
    tmod := none,
    pmod := [ none,
      some { name := ["target2", "target3"], poly := [[1], [1]],
             param := [[0, 0, 1, 0, 0, 0, 0, 0], [0, 0, 0, 0, 1, 0, 0, 1]] },
      some { name := ["target2", "target3"], poly := [[1], [1]],
             param := [[0, 0, 0, 1, 1, 1, 0, 0], [1, 0, 0, 0, 0, 0, 1, 1]] },
      some { name := ["target2", "target3"], poly := [[1], [1]],
             param := [[0, 1, 0, 0, 0, 1, 0, 1], [0, 0, 0, 0, 1, 0, 1, 0]] } ],
    regressor_names := none,
    regressors := none }

/-- C9: `subjectinfo` ignores its `subject_id` argument entirely - any two
calls return the same value - and every call returns exactly two
structurally identical `Bunch` records built from the fixed conditions,
onset times, 2-second durations per condition, and parametric
modulators. -/
theorem subjectinfo_constant :
    (∀ s₁ s₂ : String, subjectinfo s₁ = subjectinfo s₂) ∧
    (∀ s : String, subjectinfo s = [runBunch, runBunch]) ∧
    (∀ s : String, (subjectinfo s).length = 2) :=
  ⟨fun _ _ => rfl, fun _ => rfl, fun _ => rfl⟩

/-- A definition-time node parameter value. -/
inductive PVal where
  | num (q : ℚ)
  | str (s : String)
  | flag (b : Bool)
  | nums (l : List ℚ)
  | dict (entries : List (String × PVal))

/-- Read a node input from its parameter map. -/
def getIn (inputs : List (String × PVal)) (k : String) : Option PVal :=
  (inputs.find? (fun p => p.1 == k)).map (·.2)

/-- Overwrite a node input in its parameter map. -/
def setIn (inputs : List (String × PVal)) (k : String) (v : PVal) :
    List (String × PVal) :=
  inputs.filter (fun p => !(p.1 == k)) ++ [(k, v)]

/-- The `modelspec` node's definition-time inputs (script lines 113-122);
`time_repetition` is set to 8.0 at line 114. -/
def modelspecInputs : List (String × PVal) :=
  [ ("input_units", .str "secs"),
    ("time_repetition", .num 8),
    ("high_pass_filter_cutoff", .num 128),
    ("model_hrf", .flag true),
    ("scale_regressors", .flag true),
    ("scan_onset", .num 4),
    ("stimuli_as_impulses", .flag true),
    ("time_acquisition", .num 2),
    ("use_temporal_deriv", .flag false),
    ("volumes_in_cluster", .num 1) ]

/-- The `level1design` node's definition-time inputs (script lines
126-129).  The assignment `level1design.inputs.interscan_interval =
modelspec.inputs.time_repetition` reads the current value of
`modelspec.inputs.time_repetition` and stores it - a copy made at
definition time, not a connection. -/
def level1designInputs : List (String × PVal) :=
  [ ("bases", .dict [("hrf", .dict [("derivs", .nums [0, 0])])]),
    ("timing_units", .str "secs"),
    ("interscan_interval",
      (getIn modelspecInputs "time_repetition").getD (.num 0)) ]

/-- The definition-time parameter maps of the two volanalysis nodes the
assignment relates. -/
structure VolanalysisBuild where
  modelspecIn : List (String × PVal)
  level1designIn : List (String × PVal)

/-- The state after the script's definition section. -/
def volanalysisBuild : VolanalysisBuild :=
  { modelspecIn := modelspecInputs, level1designIn := level1designInputs }

/-- A later mutation of `modelspec.inputs.time_repetition`. -/
def setModelspecTR (st : VolanalysisBuild) (v : PVal) : VolanalysisBuild :=
  { st with modelspecIn := setIn st.modelspecIn "time_repetition" v }

/-- C10: the assignment copies the value 8.0 at definition time:
`level1design` carries `interscan_interval = 8.0`, and mutating
`modelspec.inputs.time_repetition` afterwards - to any value - leaves
`level1design.inputs.interscan_interval` (indeed its whole parameter map)
unchanged. -/
theorem interscan_interval_copied_by_value :
    getIn volanalysisBuild.level1designIn "interscan_interval" =
      some (PVal.num 8) ∧
    (∀ v : PVal,
      getIn (setModelspecTR volanalysisBuild v).level1designIn
        "interscan_interval" = some (PVal.num 8)) ∧
    (∀ v : PVal, (setModelspecTR volanalysisBuild v).level1designIn =
      volanalysisBuild.level1designIn) :=
  ⟨rfl, fun _ => rfl, fun _ => rfl⟩
